import Mathlib

/-!
Verification of the audio streaming core of the sreemukhi-frontend repository.

The development shallowly embeds the audio pipeline of
`src/app/utils/audioUtils.ts` (`startStreamingMic`: downsampling, RMS-based
VAD, PCM16 encoding, 320-sample framing) and of `src/app/page.tsx`
(`scheduleBuffer`, `processBinaryChunk`, the `tts_end` drain logic and the
echo guard) into Lean.  JavaScript numbers are modelled as exact rationals
(every arithmetic operation appearing in the modelled code — clamping,
scaling by 32767/32768, division by a sample-rate ratio — is exact in
IEEE doubles for the magnitudes involved, so ℚ is a faithful model); the
RMS value of a tick, whose computation uses `Math.sqrt`, is treated as the
tick's measured input, exactly as the spec's own test properties do
("given a synthetic RMS series ...").
-/

namespace Sreemukhi

/- ────────────────────────────────────────────────
   PCM16 encoding / decoding
   (audioUtils.ts lines 406-411, page.tsx lines 142-159)
   ──────────────────────────────────────────────── -/

/-- Clamp of a sample to [-1, 1]: `Math.max(-1, Math.min(1, v))`
(audioUtils.ts line 409). -/
def clampSample (x : ℚ) : ℚ := max (-1) (min 1 x)

/-- Truncation toward zero of a JS number, as performed when a number is
stored into an `Int16Array` (ECMA `ToInt16`, first step). -/
def jsTrunc (q : ℚ) : ℤ := if q < 0 then ⌈q⌉ else ⌊q⌋

/-- Storage into an `Int16Array`: truncate toward zero, then wrap into the
signed 16-bit range (ECMA `ToInt16`, both steps). -/
def toInt16 (q : ℚ) : ℤ := (jsTrunc q + 32768) % 65536 - 32768

/-- One sample of the Float32 → PCM16 conversion of audioUtils.ts lines
408-411: `const s = Math.max(-1, Math.min(1, downsampled[i]));
pcm16[i] = s < 0 ? s * 0x8000 : s * 0x7fff;` where the assignment into the
`Int16Array` applies `toInt16`. -/
def pcm16Sample (x : ℚ) : ℤ :=
  let s := clampSample x
  if s < 0 then toInt16 (s * 32768) else toInt16 (s * 32767)

/-- The encoder exactly as the spec words it (claim C2): clamp to [-1,1],
then truncate `s * 32768` for negative `s` and `s * 32767` otherwise.
Stated separately from `pcm16Sample` so that the refinement between the
spec's description and the source can be proved. -/
def specEncodeSample (x : ℚ) : ℤ :=
  let s := clampSample x
  if s < 0 then jsTrunc (s * 32768) else jsTrunc (s * 32767)

/-- The playback-side decoding of one PCM16 sample
(page.tsx line 150: `float32[i] = int16[i] / 32768`). -/
def decodeSample (y : ℤ) : ℚ := (y : ℚ) / 32768

/- ────────────────────────────────────────────────
   Resampler (audioUtils.ts lines 356-364)
   ──────────────────────────────────────────────── -/

/-- Nearest-neighbour downsampling of audioUtils.ts lines 356-364:
`ratio = audioContext.sampleRate / 16000`,
`newLength = Math.floor(input.length / ratio)`,
`downsampled[i] = input[Math.floor(i * ratio)]`.
Out-of-range reads cannot occur (proved below); `getD` with default 0 is
used for the access. -/
def downsample (sampleRate : ℚ) (input : List ℚ) : List ℚ :=
  let r := sampleRate / 16000
  let newLength := (⌊(input.length : ℚ) / r⌋).toNat
  (List.range newLength).map (fun (i : ℕ) => input.getD (⌊(i : ℚ) * r⌋).toNat 0)

/- ────────────────────────────────────────────────
   Frame chunking (audioUtils.ts lines 413-422)
   ──────────────────────────────────────────────── -/

/-- The 20 ms frame-chunking loop of audioUtils.ts lines 416-422:
`for (i = 0; i < pcm16.length; i += 320) { const frame = pcm16.slice(i, i + 320);
if (frame.length === 320) ws.send(frame.buffer); }`.
The slices of full length 320 are exactly those starting at `320*k` with
`k < pcm16.length / 320`, so the sent frames are enumerated by that range. -/
def frameChunks (pcm : List ℤ) : List (List ℤ) :=
  (List.range (pcm.length / 320)).map (fun k => (pcm.drop (320 * k)).take 320)

/- ────────────────────────────────────────────────
   VAD state and the per-tick processing of
   `processor.onaudioprocess` (audioUtils.ts lines 342-428)
   ──────────────────────────────────────────────── -/

/-- VAD edge events, sent as the JSON control messages
`{"type":"speech_start"}` / `{"type":"speech_end"}` and simultaneously
delivered through the `onSpeechStart` / `onSpeechEnd` callbacks. -/
inductive Edge
  | speechStart
  | speechEnd
deriving DecidableEq, Repr

/-- A message dispatched on the WebSocket by one capture tick: either a
JSON control message carrying a VAD edge, or one binary PCM16 frame. -/
inductive MicMsg
  | ctrl (e : Edge)
  | bin (frame : List ℤ)
deriving DecidableEq, Repr

/-- The mutable closure state of `startStreamingMic`
(audioUtils.ts lines 342-349). -/
structure MicState where
  framesSent : ℕ
  isSpeaking : Bool
  lastSpeechTs : ℚ
  noiseSum : ℚ
  noiseCount : ℕ
deriving DecidableEq, Repr

/-- Initial closure state of `startStreamingMic`
(`framesSent = 0`, `isSpeaking = false`, `lastSpeechTs = 0`,
`noiseSum = 0`, `noiseCount = 0`). -/
def initMicState : MicState :=
  { framesSent := 0, isSpeaking := false, lastSpeechTs := 0
    noiseSum := 0, noiseCount := 0 }

/-- Default `energyThreshold` option of `startStreamingMic` (0.01),
also the value page.tsx passes explicitly. -/
def defaultEnergyThreshold : ℚ := 1 / 100

/-- Default `silenceMs` option of `startStreamingMic` (600 ms),
also the value page.tsx passes explicitly. -/
def defaultSilenceMs : ℚ := 600

/-- Noise-floor calibration of audioUtils.ts lines 373-378: during the
first 500 ms (`calibrationMs`) of the stream, accumulate the tick's RMS
into the running noise sum and count. -/
def calibrate (st : MicState) (rms elapsed : ℚ) : MicState :=
  if elapsed < 500 then
    { st with noiseSum := st.noiseSum + rms, noiseCount := st.noiseCount + 1 }
  else st

/-- Effective threshold of audioUtils.ts lines 380-384:
`threshold = energyThreshold; if (noiseCount > 0) threshold =
Math.max(energyThreshold, (noiseSum / noiseCount) * 3.0)`. -/
def effThreshold (energyThreshold : ℚ) (st : MicState) : ℚ :=
  if 0 < st.noiseCount then
    max energyThreshold (st.noiseSum / (st.noiseCount : ℚ) * 3)
  else energyThreshold

/-- VAD decision of audioUtils.ts lines 386-404: on `rms ≥ threshold`,
refresh `lastSpeechTs` and emit `speech_start` if not already speaking;
otherwise, while speaking, emit `speech_end` once the trailing silence
`now - lastSpeechTs` reaches `silenceMs`. -/
def vadDecide (silenceMs : ℚ) (st : MicState) (rms threshold now : ℚ) :
    MicState × List Edge :=
  if threshold ≤ rms then
    if st.isSpeaking then ({ st with lastSpeechTs := now }, [])
    else ({ st with isSpeaking := true, lastSpeechTs := now }, [.speechStart])
  else if st.isSpeaking then
    if silenceMs ≤ now - st.lastSpeechTs then
      ({ st with isSpeaking := false }, [.speechEnd])
    else (st, [])
  else (st, [])

/-- One invocation of `processor.onaudioprocess`
(audioUtils.ts lines 351-428).  `wsOpen` models
`ws.readyState === WebSocket.OPEN`; when it is false the whole handler is
the early return of line 352.  `rms` is the tick's measured RMS energy of
the downsampled buffer (its `Math.sqrt` is not rational, so the value is
an input of the tick; every use of it below is order-preserving).
Returns the new closure state and the messages sent, in send order:
VAD control messages first, then the full 320-sample binary frames. -/
def micTick (energyThreshold silenceMs streamStart sampleRate : ℚ)
    (wsOpen : Bool) (st : MicState) (input : List ℚ) (rms now : ℚ) :
    MicState × List MicMsg :=
  if wsOpen then
    let downsampled := downsample sampleRate input
    let st1 := calibrate st rms (now - streamStart)
    let thr := effThreshold energyThreshold st1
    let dec := vadDecide silenceMs st1 rms thr now
    let pcm := downsampled.map pcm16Sample
    let frames := frameChunks pcm
    ({ dec.1 with framesSent := dec.1.framesSent + frames.length },
      dec.2.map .ctrl ++ frames.map .bin)
  else (st, [])

/-- Control edges among the messages of a tick. -/
def edgesOf (msgs : List MicMsg) : List Edge :=
  msgs.filterMap (fun m => match m with | .ctrl e => some e | .bin _ => none)

/-- Binary frame payloads among the messages of a tick. -/
def binsOf (msgs : List MicMsg) : List (List ℤ) :=
  msgs.filterMap (fun m => match m with | .ctrl _ => none | .bin f => some f)

@[simp] lemma edgesOf_nil : edgesOf [] = [] := rfl

@[simp] lemma edgesOf_cons_ctrl (e : Edge) (l : List MicMsg) :
    edgesOf (.ctrl e :: l) = e :: edgesOf l := rfl

@[simp] lemma edgesOf_cons_bin (f : List ℤ) (l : List MicMsg) :
    edgesOf (.bin f :: l) = edgesOf l := rfl

@[simp] lemma edgesOf_append (a b : List MicMsg) :
    edgesOf (a ++ b) = edgesOf a ++ edgesOf b := by
  simp [edgesOf, List.filterMap_append]

@[simp] lemma edgesOf_map_ctrl (es : List Edge) :
    edgesOf (es.map .ctrl) = es := by
  induction es with
  | nil => rfl
  | cons e t ih => simpa using ih

@[simp] lemma edgesOf_map_bin (fs : List (List ℤ)) :
    edgesOf (fs.map .bin) = [] := by
  induction fs with
  | nil => rfl
  | cons f t ih => simpa using ih

@[simp] lemma binsOf_nil : binsOf [] = [] := rfl

@[simp] lemma binsOf_cons_ctrl (e : Edge) (l : List MicMsg) :
    binsOf (.ctrl e :: l) = binsOf l := rfl

@[simp] lemma binsOf_cons_bin (f : List ℤ) (l : List MicMsg) :
    binsOf (.bin f :: l) = f :: binsOf l := rfl

@[simp] lemma binsOf_append (a b : List MicMsg) :
    binsOf (a ++ b) = binsOf a ++ binsOf b := by
  simp [binsOf, List.filterMap_append]

@[simp] lemma binsOf_map_ctrl (es : List Edge) :
    binsOf (es.map .ctrl) = [] := by
  induction es with
  | nil => rfl
  | cons e t ih => simpa using ih

@[simp] lemma binsOf_map_bin (fs : List (List ℤ)) :
    binsOf (fs.map .bin) = fs := by
  induction fs with
  | nil => rfl
  | cons f t ih => simpa using ih

/-- Inputs of one capture tick: socket state, raw input buffer, measured
RMS, and the tick's `performance.now()` timestamp. -/
structure TickIn where
  wsOpen : Bool
  buf : List ℚ
  rms : ℚ
  now : ℚ
deriving DecidableEq, Repr

/-- Run of a sequence of capture ticks, collecting the emitted VAD edges
in order. -/
def runMic (energyThreshold silenceMs streamStart sampleRate : ℚ)
    (st : MicState) : List TickIn → MicState × List Edge
  | [] => (st, [])
  | t :: ts =>
      let r := micTick energyThreshold silenceMs streamStart sampleRate
        t.wsOpen st t.buf t.rms t.now
      let rest := runMic energyThreshold silenceMs streamStart sampleRate r.1 ts
      (rest.1, edgesOf r.2 ++ rest.2)

/-- Edges emitted by `StreamingMicHandle.stop` (audioUtils.ts lines
430-441): `if (isSpeaking && ws.readyState === WebSocket.OPEN)` a final
`speech_end` is sent (and the callback fired) before the device is
released. -/
def stopEdges (wsOpen : Bool) (st : MicState) : List Edge :=
  if st.isSpeaking && wsOpen then [.speechEnd] else []

/-- All VAD edges of one streaming-mic session: the edges of the tick run
followed by the edges of the final `stop()` call. -/
def sessionEdges (energyThreshold silenceMs streamStart sampleRate : ℚ)
    (ticks : List TickIn) (stopOpen : Bool) : List Edge :=
  (runMic energyThreshold silenceMs streamStart sampleRate initMicState ticks).2
    ++ stopEdges stopOpen
        (runMic energyThreshold silenceMs streamStart sampleRate initMicState ticks).1

/- ────────────────────────────────────────────────
   Playback scheduler (page.tsx lines 97-121)
   ──────────────────────────────────────────────── -/

/-- State of the playback scheduler: the play-head cursor
(`playHeadRef`) and the list of scheduled buffers as (start, duration)
pairs, in scheduling order. -/
structure SchedState where
  playHead : ℚ
  scheduled : List (ℚ × ℚ)
deriving DecidableEq, Repr

/-- The `scheduleBuffer` callback of page.tsx lines 97-121:
`if (playHeadRef.current < audioCtx.currentTime) playHeadRef.current =
audioCtx.currentTime; src.start(playHeadRef.current);
playHeadRef.current += buffer.duration`.  `now` is
`audioCtx.currentTime` at the call and `dur` the buffer's duration. -/
def scheduleBuffer (st : SchedState) (now dur : ℚ) : SchedState :=
  let ph := if st.playHead < now then now else st.playHead
  { playHead := ph + dur, scheduled := st.scheduled ++ [(ph, dur)] }

/-- Run of the scheduler over a sequence of chunks, each given as
(currentTime at arrival, buffer duration). -/
def runSchedule (st : SchedState) (evts : List (ℚ × ℚ)) : SchedState :=
  evts.foldl (fun s e => scheduleBuffer s e.1 e.2) st

/- ────────────────────────────────────────────────
   End-of-utterance synchronization (page.tsx lines 97-121 and 220-235)
   ──────────────────────────────────────────────── -/

/-- Observable playback events: a buffer is scheduled (its completion
promise is pushed onto `sourceEndPromisesRef`), a buffer's `onended`
completion notification fires, or a `tts_end` control message arrives. -/
inductive PbEvent
  | sched (n : ℕ)
  | complete (n : ℕ)
  | ttsEnd
deriving DecidableEq, Repr

/-- Output trace entries of the playback end-sync machine: the mirrored
input event, or the idle transition (`ttsActiveRef.current = false;
setIsSpeaking(false); setCallPhase("listening")`) annotated with the
snapshot of buffers it waited for. -/
inductive POut
  | ev (e : PbEvent)
  | idle (snapshot : List ℕ)
deriving DecidableEq, Repr

/-- State of the end-sync machine: identifiers of every buffer scheduled
so far (`sourceEndPromisesRef` is only appended to while the context
lives, resolved promises included), the completed ones, and the snapshots
taken by `tts_end` handlers whose `Promise.all` has not yet resolved. -/
structure PbState where
  scheduled : List ℕ
  completed : List ℕ
  waiting : List (List ℕ)
deriving DecidableEq, Repr

/-- Empty end-sync state at audio-context creation. -/
def initPbState : PbState := { scheduled := [], completed := [], waiting := [] }

/-- One step of the end-sync machine, mirroring page.tsx:
scheduling pushes a completion promise (lines 104-110); a completion
resolves it, which fires the `Promise.all` continuation of every
`tts_end` whose whole snapshot is now complete (lines 225-229); a
`tts_end` snapshots `[...sourceEndPromisesRef.current]` and either
transitions immediately when every snapshot member is already complete
(also when the snapshot is empty, lines 230-234) or registers the
snapshot to wait on (lines 223-229). -/
def pbStep (st : PbState) : PbEvent → PbState × List POut
  | .sched n => ({ st with scheduled := st.scheduled ++ [n] }, [.ev (.sched n)])
  | .complete n =>
      let c := st.completed ++ [n]
      let fired := st.waiting.filter (fun s => s.all (· ∈ c))
      let rest := st.waiting.filter (fun s => ¬ s.all (· ∈ c))
      ({ st with completed := c, waiting := rest },
        .ev (.complete n) :: fired.map .idle)
  | .ttsEnd =>
      let s := st.scheduled
      if s.all (· ∈ st.completed) then (st, [.ev .ttsEnd, .idle s])
      else ({ st with waiting := st.waiting ++ [s] }, [.ev .ttsEnd])

/-- Run of the end-sync machine over a list of playback events. -/
def pbRun (st : PbState) : List PbEvent → List POut
  | [] => []
  | e :: es => (pbStep st e).2 ++ pbRun (pbStep st e).1 es

/-- Full output trace of the end-sync machine from the empty state. -/
def pbTrace (evts : List PbEvent) : List POut := pbRun initPbState evts

/- ────────────────────────────────────────────────
   Session coordinator / echo guard (page.tsx lines 180-198)
   ──────────────────────────────────────────────── -/

/-- The `CallPhase` UI state of page.tsx. -/
inductive CallPhase
  | connecting
  | listening
  | speaking
deriving DecidableEq, Repr

/-- Coordinator state visible to the VAD callbacks: the `ttsActiveRef`
echo-guard flag, the `isSpeaking` UI flag, and the UI-facing phase. -/
structure CoordState where
  ttsActive : Bool
  isSpeakingUI : Bool
  callPhase : CallPhase
deriving DecidableEq, Repr

/-- The `onSpeechStart` callback of page.tsx lines 185-190:
`if (!ttsActiveRef.current) setCallPhase("listening")`. -/
def onSpeechStartCb (st : CoordState) : CoordState :=
  if st.ttsActive then st else { st with callPhase := .listening }

/-- The `onSpeechEnd` callback of page.tsx lines 191-197:
`if (!ttsActiveRef.current) setCallPhase("listening")`. -/
def onSpeechEndCb (st : CoordState) : CoordState :=
  if st.ttsActive then st else { st with callPhase := .listening }

/- ────────────────────────────────────────────────
   Helper lemmas: encoder
   ──────────────────────────────────────────────── -/

lemma neg_one_le_clampSample (x : ℚ) : -1 ≤ clampSample x := le_max_left _ _

lemma clampSample_le_one (x : ℚ) : clampSample x ≤ 1 :=
  max_le (by norm_num) (min_le_left _ _)

lemma clampSample_eq_self {x : ℚ} (h1 : -1 ≤ x) (h2 : x ≤ 1) :
    clampSample x = x := by
  unfold clampSample
  rw [min_eq_right h2, max_eq_right h1]

lemma toInt16_eq_jsTrunc {q : ℚ} (h1 : -32768 ≤ jsTrunc q)
    (h2 : jsTrunc q ≤ 32767) : toInt16 q = jsTrunc q := by
  unfold toInt16
  rw [Int.emod_eq_of_lt (by omega) (by omega)]
  omega

lemma jsTrunc_neg_bounds {s : ℚ} (hlo : -1 ≤ s) (hneg : s < 0) :
    -32768 ≤ jsTrunc (s * 32768) ∧ jsTrunc (s * 32768) ≤ 0 := by
  have hq : s * 32768 < 0 := by nlinarith
  have hql : (-32768 : ℚ) ≤ s * 32768 := by nlinarith
  unfold jsTrunc
  rw [if_pos hq]
  constructor
  · have := Int.ceil_mono hql
    simpa using this
  · exact Int.ceil_le.mpr (by exact_mod_cast hq.le)

lemma jsTrunc_nonneg_bounds {s : ℚ} (hpos : 0 ≤ s) (hhi : s ≤ 1) :
    0 ≤ jsTrunc (s * 32767) ∧ jsTrunc (s * 32767) ≤ 32767 := by
  have hq : (0 : ℚ) ≤ s * 32767 := by nlinarith
  have hqh : s * 32767 ≤ 32767 := by nlinarith
  unfold jsTrunc
  rw [if_neg (not_lt.mpr hq)]
  constructor
  · exact Int.floor_nonneg.mpr hq
  · have := Int.floor_mono hqh
    simpa using this

/-- The source encoder agrees with the spec's description of it, sample
by sample, and its output always lies in the signed 16-bit range (so the
`Int16Array` wrap never fires). -/
lemma pcm16Sample_eq_spec (x : ℚ) :
    pcm16Sample x = specEncodeSample x ∧
      -32768 ≤ pcm16Sample x ∧ pcm16Sample x ≤ 32767 := by
  unfold pcm16Sample specEncodeSample
  have hlo := neg_one_le_clampSample x
  have hhi := clampSample_le_one x
  set s := clampSample x with hs
  by_cases hneg : s < 0
  · rw [if_pos hneg, if_pos hneg]
    obtain ⟨h1, h2⟩ := jsTrunc_neg_bounds hlo hneg
    rw [toInt16_eq_jsTrunc h1 (by omega)]
    omega
  · rw [if_neg hneg, if_neg hneg]
    obtain ⟨h1, h2⟩ := jsTrunc_nonneg_bounds (not_lt.mp hneg) hhi
    rw [toInt16_eq_jsTrunc (by omega) (by omega)]
    omega

/- ────────────────────────────────────────────────
   Claim theorems: C2 and C9 (encoder)
   ──────────────────────────────────────────────── -/

/-- Claim C2: the frame encoder clamps each input sample to [-1, 1] and
then scales, a negative clamped value by 32768 and a non-negative one by
32767, truncating to a 16-bit signed integer; it coincides with the
spec's function `x ↦ let s = clamp(x,-1,1) in if s < 0 then trunc(s·32768)
else trunc(s·32767)` (`specEncodeSample`), its output stays in the signed
16-bit range, and no output ever equals +32768. -/
theorem encoder_clamp_scale_c2 (x : ℚ) :
    pcm16Sample x = specEncodeSample x ∧
      -32768 ≤ pcm16Sample x ∧ pcm16Sample x < 32768 := by
  obtain ⟨h1, h2, h3⟩ := pcm16Sample_eq_spec x
  exact ⟨h1, h2, by omega⟩

/-- Claim C9 (counterexample): the round-trip error is NOT within
1/32768 for every x in [-1, 1].  At x = 65535/65536 (a value exactly
representable as a Float32), 32767·x = 32766.5000…, the encoder truncates
to 32766, playback decodes to 32766/32768, and the error is 3/65536,
strictly greater than 1/32768 = 2/65536. -/
theorem roundtrip_counterexample_c9 :
    1 / 32768 < |decodeSample (pcm16Sample (65535 / 65536)) - 65535 / 65536| := by
  have hclamp : clampSample (65535 / 65536 : ℚ) = 65535 / 65536 :=
    clampSample_eq_self (by norm_num) (by norm_num)
  have hfloor : (⌊(65535 / 65536 : ℚ) * 32767⌋ : ℤ) = 32766 := by
    rw [Int.floor_eq_iff]
    norm_num
  have htr : jsTrunc ((65535 / 65536 : ℚ) * 32767) = 32766 := by
    unfold jsTrunc
    rw [if_neg (by norm_num), hfloor]
  have henc : pcm16Sample (65535 / 65536) = 32766 := by
    simp only [pcm16Sample, hclamp, if_neg (by norm_num : ¬ (65535 / 65536 : ℚ) < 0)]
    rw [toInt16_eq_jsTrunc (by rw [htr]; norm_num) (by rw [htr]; norm_num), htr]
  rw [henc]
  unfold decodeSample
  rw [abs_sub_comm, abs_of_pos (by norm_num)]
  norm_num

/-- Claim C9 (amended): decoding the encoded value back through the
playback path (`decode(y) = y / 32768`) recovers x within 2/32768
(= 1/16384) for every x in [-1, 1]; the bound 1/32768 claimed by the spec
is exceeded near x = 1 because non-negative samples are scaled by 32767
but decoded by 32768. -/
theorem roundtrip_bound_c9 (x : ℚ) (h1 : -1 ≤ x) (h2 : x ≤ 1) :
    |decodeSample (pcm16Sample x) - x| ≤ 1 / 16384 := by
  have hcl : clampSample x = x := clampSample_eq_self h1 h2
  by_cases hneg : x < 0
  · have hb := jsTrunc_neg_bounds h1 hneg
    have hq : x * 32768 < 0 := by nlinarith
    have htr : jsTrunc (x * 32768) = ⌈x * 32768⌉ := by
      unfold jsTrunc
      rw [if_pos hq]
    have hexpr : pcm16Sample x = ⌈x * 32768⌉ := by
      simp only [pcm16Sample, hcl, if_pos hneg]
      rw [toInt16_eq_jsTrunc hb.1 (by omega), htr]
    rw [hexpr]
    have hle := Int.le_ceil (x * 32768)
    have hlt := Int.ceil_lt_add_one (x * 32768)
    unfold decodeSample
    rw [abs_le]
    constructor
    · linarith
    · linarith
  · push_neg at hneg
    have hb := jsTrunc_nonneg_bounds hneg h2
    have hq : (0 : ℚ) ≤ x * 32767 := by nlinarith
    have htr : jsTrunc (x * 32767) = ⌊x * 32767⌋ := by
      unfold jsTrunc
      rw [if_neg (not_lt.mpr hq)]
    have hexpr : pcm16Sample x = ⌊x * 32767⌋ := by
      simp only [pcm16Sample, hcl, if_neg (not_lt.mpr hneg)]
      rw [toInt16_eq_jsTrunc (by omega) (by omega), htr]
    rw [hexpr]
    have hle := Int.floor_le (x * 32767)
    have hlt := Int.lt_floor_add_one (x * 32767)
    unfold decodeSample
    rw [abs_le]
    constructor
    · linarith
    · linarith

/-- Witness for the amended C9 bound at x = 1/2: the encoder yields
⌊16383.5⌋ = 16383, decoding gives 16383/32768, and the error 1/65536 is
within 1/16384. -/
theorem roundtrip_bound_c9_witness :
    |decodeSample (pcm16Sample (1 / 2)) - 1 / 2| ≤ 1 / 16384 :=
  roundtrip_bound_c9 (1 / 2) (by norm_num) (by norm_num)

/- ────────────────────────────────────────────────
   Claim theorem: C8 (resampler)
   ──────────────────────────────────────────────── -/

/-- Claim C8: for an input buffer of N samples at source rate `sampleRate`
and target rate 16000, the resampler produces exactly
⌊N · 16000 / sampleRate⌋ output samples, every selected source index
⌊i · sampleRate / 16000⌋ is in bounds, and output[i] =
input[⌊i · sampleRate / 16000⌋] (nearest-neighbour decimation). -/
theorem resampler_c8 (sampleRate : ℚ) (input : List ℚ)
    (hr : 0 < sampleRate) (i : ℕ)
    (hi : i < (downsample sampleRate input).length) :
    (downsample sampleRate input).length
        = (⌊(input.length : ℚ) * 16000 / sampleRate⌋).toNat ∧
    (⌊(i : ℚ) * sampleRate / 16000⌋).toNat < input.length ∧
    (downsample sampleRate input).getD i 0
        = input.getD (⌊(i : ℚ) * sampleRate / 16000⌋).toNat 0 := by
  have hr16 : (0 : ℚ) < sampleRate / 16000 := by positivity
  have hdivs : (input.length : ℚ) / (sampleRate / 16000)
      = (input.length : ℚ) * 16000 / sampleRate := div_div_eq_mul_div _ _ _
  have hlen : (downsample sampleRate input).length
      = (⌊(input.length : ℚ) / (sampleRate / 16000)⌋).toNat := by
    unfold downsample
    rw [List.length_map, List.length_range]
  have hidx : (i : ℚ) * (sampleRate / 16000) = (i : ℚ) * sampleRate / 16000 :=
    (mul_div_assoc _ _ _).symm
  have hin : i < (⌊(input.length : ℚ) / (sampleRate / 16000)⌋).toNat := by
    rw [hlen] at hi
    exact hi
  refine ⟨by rw [hlen, hdivs], ?_, ?_⟩
  · -- the selected source index is in bounds
    have h1 : (i : ℤ) < ⌊(input.length : ℚ) / (sampleRate / 16000)⌋ := by omega
    have h2 : (i : ℚ) < (input.length : ℚ) / (sampleRate / 16000) := by
      have hfl := Int.floor_le ((input.length : ℚ) / (sampleRate / 16000))
      have hcast : ((i : ℚ)) + 1 ≤ (⌊(input.length : ℚ) / (sampleRate / 16000)⌋ : ℚ) := by
        exact_mod_cast Int.add_one_le_of_lt h1
      linarith
    have h3 : (i : ℚ) * (sampleRate / 16000) < (input.length : ℚ) :=
      (lt_div_iff₀ hr16).mp h2
    have hfl2 := Int.floor_le ((i : ℚ) * (sampleRate / 16000))
    have h4 : ⌊(i : ℚ) * sampleRate / 16000⌋ < (input.length : ℤ) := by
      rw [← hidx]
      exact_mod_cast lt_of_le_of_lt hfl2 h3
    have h5 : 0 ≤ ⌊(i : ℚ) * sampleRate / 16000⌋ :=
      Int.floor_nonneg.mpr (by positivity)
    omega
  · -- the output sample is the nearest-neighbour selection
    have hlen2 : i < ((List.range
        ((⌊(input.length : ℚ) / (sampleRate / 16000)⌋).toNat)).map
        (fun (j : ℕ) => input.getD (⌊(j : ℚ) * (sampleRate / 16000)⌋).toNat 0)).length := by
      rw [List.length_map, List.length_range]
      exact hin
    have hget : (downsample sampleRate input).getD i 0
        = input.getD (⌊(i : ℚ) * (sampleRate / 16000)⌋).toNat 0 := by
      show ((List.range ((⌊(input.length : ℚ) / (sampleRate / 16000)⌋).toNat)).map
        (fun (j : ℕ) => input.getD (⌊(j : ℚ) * (sampleRate / 16000)⌋).toNat 0)).getD i 0
        = input.getD (⌊(i : ℚ) * (sampleRate / 16000)⌋).toNat 0
      rw [List.getD_eq_getElem _ _ hlen2, List.getElem_map, List.getElem_range]
    rw [hget, hidx]

/-- Witness for C8 at a 48 kHz six-sample buffer and output index 1: the
output has ⌊6·16000/48000⌋ = 2 samples and output[1] selects
input[⌊1·48000/16000⌋] = input[3]. -/
theorem resampler_c8_witness :
    (downsample 48000 [10, 11, 12, 13, 14, 15]).length
        = (⌊(([10, 11, 12, 13, 14, 15] : List ℚ).length : ℚ) * 16000 / 48000⌋).toNat ∧
    (⌊((1 : ℕ) : ℚ) * 48000 / 16000⌋).toNat < ([10, 11, 12, 13, 14, 15] : List ℚ).length ∧
    (downsample 48000 [10, 11, 12, 13, 14, 15]).getD 1 0
        = ([10, 11, 12, 13, 14, 15] : List ℚ).getD (⌊((1 : ℕ) : ℚ) * 48000 / 16000⌋).toNat 0 :=
  resampler_c8 48000 [10, 11, 12, 13, 14, 15] (by norm_num) 1 (by
    unfold downsample
    rw [List.length_map, List.length_range]
    norm_num)

/- ────────────────────────────────────────────────
   Helper lemmas: frame chunking
   ──────────────────────────────────────────────── -/

lemma frameChunks_mem_length {pcm : List ℤ} {f : List ℤ}
    (hf : f ∈ frameChunks pcm) : f.length = 320 := by
  unfold frameChunks at hf
  obtain ⟨k, hk, rfl⟩ := List.mem_map.mp hf
  rw [List.mem_range] at hk
  have hk1 : (k + 1) * 320 ≤ pcm.length :=
    (Nat.le_div_iff_mul_le (by norm_num)).mp hk
  rw [List.length_take, List.length_drop]
  omega

lemma frameChunks_join_aux (l : List ℤ) :
    ∀ n : ℕ, 320 * n ≤ l.length →
      ((List.range n).map (fun k => (l.drop (320 * k)).take 320)).flatten
        = l.take (320 * n) := by
  intro n
  induction n with
  | zero => simp
  | succ m ih =>
      intro hle
      rw [List.range_succ, List.map_append, List.flatten_append,
        ih (by omega)]
      simp only [List.map_cons, List.map_nil, List.flatten_cons, List.flatten_nil,
        List.append_nil]
      have hm : 320 * (m + 1) = 320 * m + 320 := by ring
      rw [hm, List.take_add]

lemma frameChunks_join (pcm : List ℤ) :
    (frameChunks pcm).flatten = pcm.take (320 * (pcm.length / 320)) := by
  unfold frameChunks
  exact frameChunks_join_aux pcm (pcm.length / 320)
    (by rw [mul_comm]; exact Nat.div_mul_le_self _ _)

lemma binsOf_mem {l : List MicMsg} {f : List ℤ} :
    f ∈ binsOf l ↔ MicMsg.bin f ∈ l := by
  induction l with
  | nil => simp
  | cons m t ih => cases m <;> simp [ih]

lemma micTick_bins (energyThreshold silenceMs streamStart sampleRate rms now : ℚ)
    (st : MicState) (input : List ℚ) :
    binsOf (micTick energyThreshold silenceMs streamStart sampleRate
        true st input rms now).2
      = frameChunks ((downsample sampleRate input).map pcm16Sample) := by
  simp [micTick]

/- ────────────────────────────────────────────────
   Claim theorem: C1 (exact 320-sample frames)
   ──────────────────────────────────────────────── -/

/-- Claim C1: on a capture tick with the socket open, every binary audio
message dispatched carries exactly 320 PCM16 samples (640 bytes), and the
concatenation of all dispatched frames is exactly the greatest
320-multiple prefix of the tick's encoded buffer — the trailing remainder
is discarded, never padded, never sent short; no state survives a tick
that could buffer it (`MicState` carries no sample data). -/
theorem frames_exact_c1 (energyThreshold silenceMs streamStart sampleRate rms now : ℚ)
    (st : MicState) (input : List ℚ) (f : List ℤ)
    (hf : MicMsg.bin f ∈ (micTick energyThreshold silenceMs streamStart sampleRate
        true st input rms now).2) :
    f.length = 320 ∧
    (binsOf (micTick energyThreshold silenceMs streamStart sampleRate
        true st input rms now).2).flatten
      = ((downsample sampleRate input).map pcm16Sample).take
          (320 * (((downsample sampleRate input).map pcm16Sample).length / 320)) := by
  have hb := micTick_bins energyThreshold silenceMs streamStart sampleRate rms now st input
  constructor
  · exact frameChunks_mem_length (by rw [← hb] at *; exact binsOf_mem.mpr hf)
  · rw [hb, frameChunks_join]

/-- Witness for C1: a tick at 16 kHz over a 321-sample zero buffer sends
exactly one full 320-sample frame and discards the single trailing
sample. -/
theorem frames_exact_c1_witness :
    (((downsample 16000 (List.replicate 321 (0 : ℚ))).map pcm16Sample).take 320).length = 320 ∧
    (binsOf (micTick defaultEnergyThreshold defaultSilenceMs 0 16000
        true initMicState (List.replicate 321 (0 : ℚ)) 0 0).2).flatten
      = ((downsample 16000 (List.replicate 321 (0 : ℚ))).map pcm16Sample).take
          (320 * (((downsample 16000 (List.replicate 321 (0 : ℚ))).map pcm16Sample).length / 320)) := by
  have hlen : ((downsample 16000 (List.replicate 321 (0 : ℚ))).map pcm16Sample).length = 321 := by
    rw [List.length_map]
    unfold downsample
    rw [List.length_map, List.length_range, List.length_replicate]
    norm_num
    rfl
  refine frames_exact_c1 defaultEnergyThreshold defaultSilenceMs 0 16000 0 0
    initMicState (List.replicate 321 (0 : ℚ)) _ ?_
  rw [← binsOf_mem, micTick_bins]
  unfold frameChunks
  rw [hlen]
  norm_num

/- ────────────────────────────────────────────────
   Claim theorem: C10 (closed-socket tick is a no-op)
   ──────────────────────────────────────────────── -/

/-- Claim C10: when the WebSocket is not OPEN at a capture tick, the whole
tick is a no-op — no binary frame or control message is sent and the
entire VAD/calibration state (`framesSent`, `isSpeaking`, `lastSpeechTs`,
`noiseSum`, `noiseCount`) is returned unchanged; in particular
noise-floor calibration accumulates nothing while the link is not open,
even within the first 500 ms (the early return precedes the calibration
branch). -/
theorem ws_closed_noop_c10 (energyThreshold silenceMs streamStart sampleRate rms now : ℚ)
    (st : MicState) (input : List ℚ) :
    micTick energyThreshold silenceMs streamStart sampleRate false st input rms now
      = (st, []) := rfl

/- ────────────────────────────────────────────────
   Claim theorem: C5 (echo guard)
   ──────────────────────────────────────────────── -/

/-- Claim C5: while the TTS-active flag is set, the VAD edge callbacks
(`onSpeechStart` and `onSpeechEnd`) leave the coordinator state — in
particular the UI-facing phase — completely unchanged, so a session in
the `speaking` phase stays in it no matter what the capture pipeline
reports. -/
theorem echo_guard_c5 (st : CoordState) (h : st.ttsActive = true) :
    onSpeechStartCb st = st ∧ onSpeechEndCb st = st := by
  unfold onSpeechStartCb onSpeechEndCb
  rw [h]
  simp

/-- Witness for C5 at a concrete speaking-phase state. -/
theorem echo_guard_c5_witness :
    onSpeechStartCb ⟨true, true, .speaking⟩ = (⟨true, true, .speaking⟩ : CoordState) ∧
    onSpeechEndCb ⟨true, true, .speaking⟩ = (⟨true, true, .speaking⟩ : CoordState) :=
  echo_guard_c5 ⟨true, true, .speaking⟩ rfl

/- ────────────────────────────────────────────────
   Claim theorem: C6 (threshold formula, inclusive comparisons)
   ──────────────────────────────────────────────── -/

/-- Claim C6: on a VAD tick with at least one calibration sample, the
effective threshold is max(static floor 0.01, noise-floor estimate × 3.0);
the edges emitted by the tick are characterised exactly: `speech_start`
fires iff the tick is not already speaking and RMS ≥ threshold (inclusive
comparison, so the first tick whose RMS meets the threshold fires), and
`speech_end` fires iff the tick is speaking, RMS is below threshold, and
the trailing silence `now − lastSpeechTs` has reached 600 ms (inclusive),
so it fires at the first such tick. -/
theorem vad_threshold_edges_c6 (st : MicState) (rms now : ℚ)
    (h : 0 < st.noiseCount) :
    effThreshold defaultEnergyThreshold st
        = max defaultEnergyThreshold (st.noiseSum / (st.noiseCount : ℚ) * 3) ∧
    (vadDecide defaultSilenceMs st rms (effThreshold defaultEnergyThreshold st) now).2
      = (if st.isSpeaking then
          (if rms < effThreshold defaultEnergyThreshold st ∧
              600 ≤ now - st.lastSpeechTs then [Edge.speechEnd] else [])
        else
          (if effThreshold defaultEnergyThreshold st ≤ rms
            then [Edge.speechStart] else [])) := by
  constructor
  · unfold effThreshold
    rw [if_pos h]
  · by_cases hsp : st.isSpeaking <;>
      by_cases hge : effThreshold defaultEnergyThreshold st ≤ rms <;>
        by_cases hsil : (600 : ℚ) ≤ now - st.lastSpeechTs <;>
          simp [vadDecide, defaultSilenceMs, hsp, hge, hsil, lt_iff_not_le]

/-- Witness for C6, restating the spec's own §8 scenario: noise floor
calibrated to 0.002 over one sample gives threshold
max(0.01, 0.006) = 0.01, and a non-speaking tick with RMS 0.015 fires
`speech_start`. -/
theorem vad_threshold_edges_c6_witness :
    effThreshold defaultEnergyThreshold
        ⟨0, false, 0, 1 / 500, 1⟩
        = max defaultEnergyThreshold ((1 / 500 : ℚ) / ((1 : ℕ) : ℚ) * 3) ∧
    (vadDecide defaultSilenceMs ⟨0, false, 0, 1 / 500, 1⟩ (3 / 200)
        (effThreshold defaultEnergyThreshold ⟨0, false, 0, 1 / 500, 1⟩) 600).2
      = (if (⟨0, false, 0, 1 / 500, 1⟩ : MicState).isSpeaking then
          (if (3 / 200 : ℚ) < effThreshold defaultEnergyThreshold ⟨0, false, 0, 1 / 500, 1⟩ ∧
              600 ≤ (600 : ℚ) - (⟨0, false, 0, 1 / 500, 1⟩ : MicState).lastSpeechTs
            then [Edge.speechEnd] else [])
        else
          (if effThreshold defaultEnergyThreshold ⟨0, false, 0, 1 / 500, 1⟩ ≤ 3 / 200
            then [Edge.speechStart] else [])) :=
  vad_threshold_edges_c6 ⟨0, false, 0, 1 / 500, 1⟩ (3 / 200) 600 (by norm_num)

/- ────────────────────────────────────────────────
   Helper lemmas and claim theorem: C3 (playback scheduler)
   ──────────────────────────────────────────────── -/

lemma scheduleBuffer_playHead (st : SchedState) (now dur : ℚ) :
    (scheduleBuffer st now dur).playHead = max st.playHead now + dur := by
  unfold scheduleBuffer
  rcases lt_or_le st.playHead now with hlt | hle
  · rw [if_pos hlt, max_eq_right hlt.le]
  · rw [if_neg (not_lt.mpr hle), max_eq_left hle]

lemma scheduleBuffer_scheduled (st : SchedState) (now dur : ℚ) :
    (scheduleBuffer st now dur).scheduled
      = st.scheduled ++ [(max st.playHead now, dur)] := by
  unfold scheduleBuffer
  rcases lt_or_le st.playHead now with hlt | hle
  · rw [if_pos hlt, max_eq_right hlt.le]
  · rw [if_neg (not_lt.mpr hle), max_eq_left hle]

/-- Invariant: every scheduled buffer ends no later than the play head. -/
def endsBounded (st : SchedState) : Prop :=
  ∀ p ∈ st.scheduled, p.1 + p.2 ≤ st.playHead

lemma runSchedule_invariant (evts : List (ℚ × ℚ)) :
    ∀ st : SchedState, endsBounded st →
      List.Pairwise (fun a b => a.1 + a.2 ≤ b.1) st.scheduled →
      (∀ e ∈ evts, 0 ≤ e.2) →
      endsBounded (runSchedule st evts) ∧
        List.Pairwise (fun a b => a.1 + a.2 ≤ b.1)
          (runSchedule st evts).scheduled := by
  induction evts with
  | nil => intro st h1 h2 _; exact ⟨h1, h2⟩
  | cons e t ih =>
      intro st h1 h2 hd
      have hde : 0 ≤ e.2 := hd e (List.mem_cons_self _ _)
      have hph : st.playHead ≤ max st.playHead e.1 := le_max_left _ _
      have h1' : endsBounded (scheduleBuffer st e.1 e.2) := by
        intro p hp
        rw [scheduleBuffer_scheduled] at hp
        rw [scheduleBuffer_playHead]
        rcases List.mem_append.mp hp with hold | hnew
        · have := h1 p hold
          linarith
        · rw [List.mem_singleton] at hnew
          rw [hnew]
      have h2' : List.Pairwise (fun a b => a.1 + a.2 ≤ b.1)
          (scheduleBuffer st e.1 e.2).scheduled := by
        rw [scheduleBuffer_scheduled]
        rw [List.pairwise_append]
        refine ⟨h2, List.pairwise_singleton _ _, ?_⟩
        intro a ha b hb
        rw [List.mem_singleton] at hb
        rw [hb]
        exact le_trans (h1 a ha) (le_max_left _ _)
      have := ih (scheduleBuffer st e.1 e.2) h1' h2'
        (fun x hx => hd x (List.mem_cons_of_mem _ hx))
      simpa [runSchedule] using this

lemma runSchedule_playHead_ge (evts : List (ℚ × ℚ)) :
    ∀ st : SchedState,
      st.playHead + (evts.map Prod.snd).sum ≤ (runSchedule st evts).playHead := by
  induction evts with
  | nil => intro st; simp [runSchedule]
  | cons e t ih =>
      intro st
      have h1 : st.playHead + e.2 ≤ (scheduleBuffer st e.1 e.2).playHead := by
        rw [scheduleBuffer_playHead]
        have := le_max_left st.playHead e.1
        linarith
      have h2 := ih (scheduleBuffer st e.1 e.2)
      have : runSchedule st (e :: t) = runSchedule (scheduleBuffer st e.1 e.2) t := by
        simp [runSchedule]
      rw [this, List.map_cons, List.sum_cons]
      linarith

/-- Claim C3: each inbound chunk is scheduled to start at
max(play-head, now) — resynchronizing to now on underrun — and the play
head then advances by exactly the buffer's duration; consequently, from a
fresh timeline, scheduled buffers never overlap
(each ends no later than the next starts), and the scheduled span from
the first buffer's start to the final play head is at least the sum of
all buffer durations. -/
theorem playback_scheduler_c3 (st : SchedState) (now dur p : ℚ)
    (first : ℚ × ℚ) (evts : List (ℚ × ℚ))
    (hd : ∀ e ∈ (first :: evts), 0 ≤ e.2) :
    (scheduleBuffer st now dur).scheduled
        = st.scheduled ++ [(max st.playHead now, dur)] ∧
    (scheduleBuffer st now dur).playHead = max st.playHead now + dur ∧
    List.Pairwise (fun a b => a.1 + a.2 ≤ b.1)
      (runSchedule ⟨p, []⟩ (first :: evts)).scheduled ∧
    max p first.1 + ((first :: evts).map Prod.snd).sum
      ≤ (runSchedule ⟨p, []⟩ (first :: evts)).playHead := by
  refine ⟨scheduleBuffer_scheduled st now dur, scheduleBuffer_playHead st now dur, ?_, ?_⟩
  · exact (runSchedule_invariant (first :: evts) ⟨p, []⟩
      (by intro q hq; simp at hq) (by simp) hd).2
  · have hstep : runSchedule ⟨p, []⟩ (first :: evts)
        = runSchedule (scheduleBuffer ⟨p, []⟩ first.1 first.2) evts := by
      simp [runSchedule]
    have h1 : (scheduleBuffer ⟨p, []⟩ first.1 first.2).playHead
        = max p first.1 + first.2 := scheduleBuffer_playHead _ _ _
    have h2 := runSchedule_playHead_ge evts (scheduleBuffer ⟨p, []⟩ first.1 first.2)
    rw [hstep, List.map_cons, List.sum_cons]
    rw [h1] at h2
    linarith

/-- Witness for C3: two chunks of durations 1 and 2, the second arriving
with its `currentTime` ahead of the play head. -/
theorem playback_scheduler_c3_witness :
    (scheduleBuffer ⟨0, []⟩ 0 1).scheduled = [] ++ [(max (0 : ℚ) 0, 1)] ∧
    (scheduleBuffer ⟨0, []⟩ 0 1).playHead = max (0 : ℚ) 0 + 1 ∧
    List.Pairwise (fun a b => a.1 + a.2 ≤ b.1)
      (runSchedule ⟨0, []⟩ [((0 : ℚ), (1 : ℚ)), (5, 2)]).scheduled ∧
    max (0 : ℚ) (0 : ℚ) + ([((0 : ℚ), (1 : ℚ)), (5, 2)].map Prod.snd).sum
      ≤ (runSchedule ⟨0, []⟩ [((0 : ℚ), (1 : ℚ)), (5, 2)]).playHead :=
  playback_scheduler_c3 ⟨0, []⟩ 0 1 0 (0, 1) [(5, 2)] (by
    intro e he
    simp at he
    rcases he with h | h <;> rw [h] <;> norm_num)

/- ────────────────────────────────────────────────
   Helper lemmas and claim theorems: C7 (edge alternation, stop)
   ──────────────────────────────────────────────── -/

/-- Strict alternation of an edge list: no two consecutive equal edges. -/
def alternating : List Edge → Bool
  | [] => true
  | [_] => true
  | a :: b :: t => (a != b) && alternating (b :: t)

lemma alternating_concat (e : Edge) :
    ∀ evs : List Edge, alternating evs = true →
      (∀ x, evs.getLast? = some x → x ≠ e) →
      alternating (evs ++ [e]) = true
  | [], _, _ => rfl
  | [a], _, hl => by
      have : a ≠ e := hl a rfl
      simp [alternating, this]
  | a :: b :: t, h, hl => by
      rw [List.cons_append, List.cons_append]
      unfold alternating at h ⊢
      rw [Bool.and_eq_true] at h ⊢
      refine ⟨h.1, ?_⟩
      rw [← List.cons_append]
      exact alternating_concat e (b :: t) h.2
        (fun x hx => hl x (by rw [List.getLast?_cons_cons]; exact hx))

lemma calibrate_isSpeaking (st : MicState) (rms elapsed : ℚ) :
    (calibrate st rms elapsed).isSpeaking = st.isSpeaking := by
  unfold calibrate
  split <;> rfl

/-- One capture tick either emits nothing and keeps the speaking flag,
or emits exactly one `speech_start` while transitioning silent → speaking,
or exactly one `speech_end` while transitioning speaking → silent. -/
lemma micTick_step (energyThreshold silenceMs streamStart sampleRate : ℚ)
    (wsOpen : Bool) (st : MicState) (input : List ℚ) (rms now : ℚ) :
    (edgesOf (micTick energyThreshold silenceMs streamStart sampleRate
        wsOpen st input rms now).2 = [] ∧
      (micTick energyThreshold silenceMs streamStart sampleRate
        wsOpen st input rms now).1.isSpeaking = st.isSpeaking) ∨
    (edgesOf (micTick energyThreshold silenceMs streamStart sampleRate
        wsOpen st input rms now).2 = [Edge.speechStart] ∧
      st.isSpeaking = false ∧
      (micTick energyThreshold silenceMs streamStart sampleRate
        wsOpen st input rms now).1.isSpeaking = true) ∨
    (edgesOf (micTick energyThreshold silenceMs streamStart sampleRate
        wsOpen st input rms now).2 = [Edge.speechEnd] ∧
      st.isSpeaking = true ∧
      (micTick energyThreshold silenceMs streamStart sampleRate
        wsOpen st input rms now).1.isSpeaking = false) := by
  cases wsOpen with
  | false => exact Or.inl ⟨rfl, rfl⟩
  | true =>
      have hcal := calibrate_isSpeaking st rms (now - streamStart)
      simp only [micTick, if_true]
      unfold vadDecide
      split_ifs with h1 h2 h3 h4 <;>
        simp_all [edgesOf]

/-- Invariant tying the emitted edge trace to the speaking flag. -/
def edgeInv (st : MicState) (evs : List Edge) : Prop :=
  alternating evs = true ∧
  (st.isSpeaking = true → evs.getLast? = some Edge.speechStart) ∧
  (st.isSpeaking = false →
    evs.getLast? = none ∨ evs.getLast? = some Edge.speechEnd)

lemma edgeInv_step (energyThreshold silenceMs streamStart sampleRate : ℚ)
    (wsOpen : Bool) (st : MicState) (input : List ℚ) (rms now : ℚ)
    (evs : List Edge) (hinv : edgeInv st evs) :
    edgeInv (micTick energyThreshold silenceMs streamStart sampleRate
        wsOpen st input rms now).1
      (evs ++ edgesOf (micTick energyThreshold silenceMs streamStart sampleRate
        wsOpen st input rms now).2) := by
  obtain ⟨halt, hspk, hsil⟩ := hinv
  rcases micTick_step energyThreshold silenceMs streamStart sampleRate
      wsOpen st input rms now with ⟨he, hs⟩ | ⟨he, hs0, hs1⟩ | ⟨he, hs0, hs1⟩
  · rw [he, List.append_nil, ]
    exact ⟨halt, by rw [hs]; exact hspk, by rw [hs]; exact hsil⟩
  · rw [he]
    refine ⟨?_, ?_, ?_⟩
    · refine alternating_concat _ evs halt ?_
      intro x hx
      rcases hsil hs0 with hnone | hend
      · rw [hx] at hnone
        exact absurd hnone (by simp)
      · rw [hx] at hend
        intro hcontra
        rw [hcontra] at hend
        simp at hend
    · intro _
      exact List.getLast?_concat _
    · intro hfalse
      rw [hs1] at hfalse
      simp at hfalse
  · rw [he]
    refine ⟨?_, ?_, ?_⟩
    · refine alternating_concat _ evs halt ?_
      intro x hx
      have := hspk hs0
      rw [hx] at this
      intro hcontra
      rw [hcontra] at this
      simp at this
    · intro htrue
      rw [hs1] at htrue
      simp at htrue
    · intro _
      exact Or.inr (List.getLast?_concat _)

lemma runMic_invariant (energyThreshold silenceMs streamStart sampleRate : ℚ) :
    ∀ (ticks : List TickIn) (st : MicState) (evs : List Edge),
      edgeInv st evs →
      edgeInv (runMic energyThreshold silenceMs streamStart sampleRate st ticks).1
        (evs ++ (runMic energyThreshold silenceMs streamStart sampleRate st ticks).2)
  | [], st, evs, hinv => by
      simpa [runMic] using hinv
  | t :: ts, st, evs, hinv => by
      have hstep := edgeInv_step energyThreshold silenceMs streamStart sampleRate
        t.wsOpen st t.buf t.rms t.now evs hinv
      have hrec := runMic_invariant energyThreshold silenceMs streamStart sampleRate
        ts (micTick energyThreshold silenceMs streamStart sampleRate
          t.wsOpen st t.buf t.rms t.now).1
        (evs ++ edgesOf (micTick energyThreshold silenceMs streamStart sampleRate
          t.wsOpen st t.buf t.rms t.now).2) hstep
      simpa [runMic, List.append_assoc] using hrec

lemma sessionEdges_inv (energyThreshold silenceMs streamStart sampleRate : ℚ)
    (ticks : List TickIn) :
    edgeInv (runMic energyThreshold silenceMs streamStart sampleRate
        initMicState ticks).1
      (runMic energyThreshold silenceMs streamStart sampleRate
        initMicState ticks).2 := by
  have h0 : edgeInv initMicState [] := by
    refine ⟨rfl, ?_, ?_⟩
    · intro h
      simp [initMicState] at h
    · intro _
      exact Or.inl rfl
  simpa using runMic_invariant energyThreshold silenceMs streamStart sampleRate
    ticks initMicState [] h0

/-- Claim C7 (counterexample): a session whose first tick is quiet
(calibrating a zero noise floor) and whose second tick, after the
calibration window, carries RMS 1 ends with `isSpeaking = true`; calling
`stop()` at that point with the WebSocket no longer OPEN emits no
trailing `speech_end` — the session's whole edge trace is a single
unmatched `speech_start`, contradicting the claim that `stop()` while
`isSpeaking` is true always emits exactly one trailing `speech_end`. -/
theorem vad_stop_counterexample_c7 :
    (runMic defaultEnergyThreshold defaultSilenceMs 0 16000 initMicState
        [⟨true, [], 0, 0⟩, ⟨true, [], 1, 600⟩]).1.isSpeaking = true ∧
    sessionEdges defaultEnergyThreshold defaultSilenceMs 0 16000
        [⟨true, [], 0, 0⟩, ⟨true, [], 1, 600⟩] false = [Edge.speechStart] := by
  constructor
  · simp [runMic, micTick, downsample, calibrate, effThreshold, vadDecide,
      frameChunks, initMicState, defaultEnergyThreshold, defaultSilenceMs]
    norm_num
  · simp [sessionEdges, runMic, micTick, downsample, calibrate, effThreshold,
      vadDecide, frameChunks, stopEdges, initMicState, defaultEnergyThreshold,
      defaultSilenceMs]
    norm_num

/-- Claim C7 (amended): over the whole lifetime of a streaming-mic
session — any tick sequence followed by one `stop()` — the emitted edge
events strictly alternate, and when the WebSocket is still OPEN at
`stop()` the final event is never a dangling `speech_start`: a `stop()`
while speaking then emits exactly one trailing `speech_end`.  (Without
the open-socket proviso the trailing `speech_end` is skipped, per the
counterexample.) -/
theorem vad_alternation_c7 (energyThreshold silenceMs streamStart sampleRate : ℚ)
    (ticks : List TickIn) (stopOpen : Bool) :
    alternating (sessionEdges energyThreshold silenceMs streamStart sampleRate
        ticks stopOpen) = true ∧
    Option.all (fun x => x == Edge.speechEnd)
        ((sessionEdges energyThreshold silenceMs streamStart sampleRate
          ticks true).getLast?) = true := by
  obtain ⟨halt, hspk, hsil⟩ := sessionEdges_inv energyThreshold silenceMs
    streamStart sampleRate ticks
  constructor
  · unfold sessionEdges stopEdges
    cases hspeak : (runMic energyThreshold silenceMs streamStart sampleRate
        initMicState ticks).1.isSpeaking with
    | false =>
        simp only [hspeak, Bool.false_and, if_neg (by simp : ¬ (false && stopOpen) = true)]
        simpa using halt
    | true =>
        cases stopOpen with
        | false => simpa using halt
        | true =>
            simp only [hspeak, Bool.true_and, if_pos rfl]
            refine alternating_concat _ _ halt ?_
            intro x hx
            have := hspk hspeak
            rw [hx] at this
            intro hcontra
            rw [hcontra] at this
            simp at this
  · unfold sessionEdges stopEdges
    cases hspeak : (runMic energyThreshold silenceMs streamStart sampleRate
        initMicState ticks).1.isSpeaking with
    | false =>
        rcases hsil hspeak with hnone | hend
        · simp [hnone]
        · simp [hend]
    | true =>
        simp [List.getLast?_concat]

/- ────────────────────────────────────────────────
   Helper lemmas and claim theorem: C4 (tts_end drain)
   ──────────────────────────────────────────────── -/

lemma pbStep_head (st : PbState) (e : PbEvent) :
    ∃ tail, (pbStep st e).2 = POut.ev e :: tail := by
  cases e with
  | sched n => exact ⟨[], rfl⟩
  | complete n => exact ⟨_, rfl⟩
  | ttsEnd =>
      simp only [pbStep]
      split
      · exact ⟨_, rfl⟩
      · exact ⟨_, rfl⟩

lemma pbStep_completed_mem {st : PbState} {e : PbEvent} {b : ℕ}
    (h : b ∈ (pbStep st e).1.completed) :
    b ∈ st.completed ∨ e = PbEvent.complete b := by
  cases e with
  | sched n => exact Or.inl h
  | complete n =>
      simp only [pbStep] at h
      rcases List.mem_append.mp h with h1 | h2
      · exact Or.inl h1
      · rw [List.mem_singleton] at h2
        exact Or.inr (by rw [h2])
  | ttsEnd =>
      simp only [pbStep] at h
      split at h
      · exact Or.inl h
      · exact Or.inl h

lemma pbStep_idle_sub {st : PbState} {e : PbEvent} {S : List ℕ}
    (h : POut.idle S ∈ (pbStep st e).2) :
    ∀ b ∈ S, b ∈ (pbStep st e).1.completed := by
  intro b hb
  cases e with
  | sched n => simp [pbStep] at h
  | complete n =>
      simp only [pbStep] at h ⊢
      rcases List.mem_cons.mp h with h1 | h2
      · exact absurd h1 (by simp)
      · obtain ⟨S', hS', hEq⟩ := List.mem_map.mp h2
        have hSS : S' = S := by injection hEq
        rw [hSS] at hS'
        have := (List.mem_filter.mp hS').2
        rw [List.all_eq_true] at this
        have hbc := this b hb
        exact of_decide_eq_true hbc
  | ttsEnd =>
      simp only [pbStep] at h ⊢
      split at h
      · next hall =>
          rcases List.mem_cons.mp h with h1 | h2
          · exact absurd h1 (by simp)
          · rw [List.mem_singleton] at h2
            have hSS : S = st.scheduled := by injection h2
            rw [List.all_eq_true] at hall
            have hbc := hall b (by rw [← hSS]; exact hb)
            split
            · exact of_decide_eq_true hbc
            · exact of_decide_eq_true hbc
      · rw [List.mem_singleton] at h
        exact absurd h (by simp)

lemma pbRun_idle_after :
    ∀ (evts : List PbEvent) (st : PbState) (t1 : List POut) (S : List ℕ)
      (t2 : List POut),
      pbRun st evts = t1 ++ POut.idle S :: t2 →
      ∀ b ∈ S, b ∈ st.completed ∨ POut.ev (.complete b) ∈ t1
  | [], st, t1, S, t2, h => by
      exfalso
      cases t1 <;> simp [pbRun] at h
  | e :: es, st, t1, S, t2, h => by
      intro b hb
      rw [pbRun] at h
      rcases List.append_eq_append_iff.mp h with ⟨w, hw1, hw2⟩ | ⟨cs, hcs1, hcs2⟩
      · -- the idle entry lies beyond this step's output
        rcases pbRun_idle_after es (pbStep st e).1 w S t2 hw2 b hb with hc | hm
        · rcases pbStep_completed_mem hc with h1 | h2
          · exact Or.inl h1
          · subst h2
            obtain ⟨tail, htail⟩ := pbStep_head st (.complete b)
            refine Or.inr ?_
            rw [hw1, htail]
            exact List.mem_append_left _ (List.mem_cons_self _ _)
        · refine Or.inr ?_
          rw [hw1]
          exact List.mem_append_right _ hm
      · -- the idle entry lies within this step's output
        cases cs with
        | nil =>
            have hrest : pbRun (pbStep st e).1 es = [] ++ POut.idle S :: t2 := by
              simpa using hcs2.symm
            rcases pbRun_idle_after es (pbStep st e).1 [] S t2 hrest b hb with hc | hm
            · rcases pbStep_completed_mem hc with h1 | h2
              · exact Or.inl h1
              · subst h2
                obtain ⟨tail, htail⟩ := pbStep_head st (.complete b)
                refine Or.inr ?_
                have houts : (pbStep st (PbEvent.complete b)).2 = t1 := by
                  simpa using hcs1
                rw [← houts, htail]
                exact List.mem_cons_self _ _
            · exact absurd hm (by simp)
        | cons x cs' =>
            rw [List.cons_append] at hcs2
            injection hcs2 with hx1 hx2
            have hidle : POut.idle S ∈ (pbStep st e).2 := by
              rw [hcs1, ← hx1]
              exact List.mem_append_right _ (List.mem_cons_self _ _)
            have hsub := pbStep_idle_sub hidle b hb
            rcases pbStep_completed_mem hsub with h1 | h2
            · exact Or.inl h1
            · subst h2
              obtain ⟨tail, htail⟩ := pbStep_head st (.complete b)
              refine Or.inr ?_
              cases t1 with
              | nil =>
                  exfalso
                  rw [htail, List.nil_append] at hcs1
                  injection hcs1 with hbad _
                  exact POut.noConfusion (hbad.trans hx1.symm)
              | cons y t1' =>
                  rw [htail, List.cons_append] at hcs1
                  have hy : POut.ev (PbEvent.complete b) = y := by
                    injection hcs1 with h1 _
                  rw [← hy]
                  exact List.mem_cons_self _ _

/-- Claim C4: whenever the end-sync machine emits the idle transition
(`ttsActive` cleared, `isSpeaking` false, `callPhase` set to listening)
for a `tts_end` whose snapshot of then-scheduled buffers is `S`, the
completion notification of every buffer in `S` appears strictly earlier
in the observable trace — the transition never precedes the last such
completion. -/
theorem tts_end_drain_c4 (evts : List PbEvent) (t1 : List POut) (S : List ℕ)
    (t2 : List POut) (h : pbTrace evts = t1 ++ POut.idle S :: t2)
    (b : ℕ) (hb : b ∈ S) : POut.ev (.complete b) ∈ t1 := by
  rcases pbRun_idle_after evts initPbState t1 S t2 h b hb with h1 | h2
  · exact absurd h1 (by simp [initPbState])
  · exact h2

/-- Witness for C4: a buffer is scheduled, `tts_end` arrives while it is
still playing, the buffer completes, and only then does the idle
transition fire — its completion is indeed in the prefix. -/
theorem tts_end_drain_c4_witness :
    POut.ev (.complete 0)
      ∈ [POut.ev (.sched 0), POut.ev .ttsEnd, POut.ev (.complete 0)] :=
  tts_end_drain_c4 [.sched 0, .ttsEnd, .complete 0]
    [.ev (.sched 0), .ev .ttsEnd, .ev (.complete 0)] [0] []
    (by decide) 0 (by decide)

end Sreemukhi
